import Mathlib

/-!
Verification development for the graphite-clickhouse front end.

The repository's `graphite-clickhouse.go` (bootstrap, HTTP wiring, access
logging) is embedded directly below in namespace `GchMain`.  The core engine
components (pattern compiler, predicate builder, cluster executor, result
cache, render pipeline) live in packages imported by `main` and are modelled
from the specification where their sources are not available; every such
definition carries a doc comment starting with `Modelled from the spec:`.
-/

namespace GchMain

/--
Model of Go `http.ResponseWriter` dynamic values as they occur in
`graphite-clickhouse.go`: either some underlying writer supplied by the
`net/http` server (`base`, carrying the response header list and the sequence
of status codes passed to the underlying `WriteHeader`), or a
`*LogResponseWriter` (`log`, embedding an inner writer and carrying the
`status int` and `cached bool` fields of the Go struct; the zero value of
`status` is `0`).
-/
inductive ResponseWriter where
  | base (hdr : List (String × String)) (statusWrites : List Int)
  | log (inner : ResponseWriter) (status : Int) (cached : Bool)
deriving DecidableEq, Repr

/--
`LogResponseWriter.WriteHeader` from the source: records the status in the
`status` field and forwards the call to the embedded `ResponseWriter`.  On a
base writer the call is recorded in the underlying server state.
-/
def ResponseWriter.writeHeader : ResponseWriter → Int → ResponseWriter
  | .base h ws, s => .base h (ws ++ [s])
  | .log inner _ c, s => .log (inner.writeHeader s) s c

/--
`LogResponseWriter.Status` from the source: `if w.status == 0 { return
http.StatusOK }; return w.status`.  A plain `http.ResponseWriter` has no
`Status` method, hence the `Option`.
-/
def ResponseWriter.statusMethod : ResponseWriter → Option Int
  | .base _ _ => none
  | .log _ st _ => some (if st = 0 then 200 else st)

/--
`WrapResponseWriter` from the source: the type switch
`if wrapped, ok := w.(*LogResponseWriter); ok { return wrapped }` returns an
already-wrapped writer unchanged, otherwise a fresh `LogResponseWriter` with
zero-valued `status` and `cached` fields is allocated around `w`.
-/
def WrapResponseWriter (w : ResponseWriter) : ResponseWriter :=
  match w with
  | .log .. => w
  | .base .. => .log w 0 false

/-- The dynamic type test used by `WrapResponseWriter`. -/
def ResponseWriter.isLogWriter : ResponseWriter → Prop
  | .log .. => True
  | .base .. => False

instance (w : ResponseWriter) : Decidable w.isLogWriter := by
  cases w <;> simp [ResponseWriter.isLogWriter] <;> infer_instance

/-- A sequence of `WriteHeader` calls applied in order to a writer. -/
def applyWrites (w : ResponseWriter) (cs : List Int) : ResponseWriter :=
  cs.foldl ResponseWriter.writeHeader w

/--
The handlers registered by `main`, as a closed enumeration of the component
constructors appearing in the source (`capabilities.NewHandler`,
`find.NewHandler`, `index.NewHandler`, `render.NewHandler`,
`autocomplete.NewTags`, `autocomplete.NewValues`, and the two inline
`HandleFunc` closures); `accessLog` is the wrapping performed by
`app.Handler`.
-/
inductive Handler where
  | capabilities
  | find
  | indexJson
  | render
  | autocompleteTags
  | autocompleteValues
  | debugConfig
  | alive
  | accessLog (inner : Handler)
deriving DecidableEq, Repr

/-- The route table built by `main` via `mux.Handle` / `mux.HandleFunc`,
in source order. -/
def muxRoutes : List (String × Handler) :=
  [("/_internal/capabilities/", .accessLog .capabilities),
   ("/metrics/find/", .accessLog .find),
   ("/metrics/index.json", .accessLog .indexJson),
   ("/render/", .accessLog .render),
   ("/tags/autoComplete/tags", .accessLog .autocompleteTags),
   ("/tags/autoComplete/values", .accessLog .autocompleteValues),
   ("/debug/config", .debugConfig),
   ("/alive", .alive)]

/-- Go `http.ServeMux` pattern matching (path cleaning and host patterns
aside): a pattern ending in a slash matches any path it prefixes, any other
pattern matches exactly. -/
def muxPatternMatches (pat path : String) : Bool :=
  if pat.toList.getLast? = some '/' then pat.toList.isPrefixOf path.toList
  else pat.toList == path.toList

/-- Go `http.ServeMux` dispatch: among the matching patterns, the longest
one wins. -/
def muxDispatch (routes : List (String × Handler)) (path : String) : Option Handler :=
  ((routes.filter (fun e => muxPatternMatches e.1 path)).foldl
    (fun best e =>
      match best with
      | none => some e
      | some b => if b.1.length < e.1.length then some e else some b) none).map Prod.snd

/-- The part of an inbound request read by `App.Handler`. -/
structure Request where
  method : String
  url : String
deriving DecidableEq, Repr

/-- Observable actions of `App.Handler`, in the order they are performed. -/
inductive Event where
  | addHeader (key value : String)
  | serveInner
  | logAccess (method url : String) (status : Option Int) (durationNs : Nat)
deriving DecidableEq, Repr

/--
`App.Handler` from the source, as a trace of its observable actions:
it wraps the response writer with `WrapResponseWriter`, adds the
`X-Gch-Request-ID` header (with the request-scope id assigned by
`scope.HttpRequest`, supplied here by the `requestID` parameter), serves the
wrapped handler (modelled by the sequence `innerWrites` of status codes the
handler passes to `WriteHeader`), and finally emits the access log line with
the request method, URL, `writer.Status()` and the elapsed duration
(`durationNs`, measured externally).
-/
def appHandler (requestID : String) (innerWrites : List Int) (r : Request)
    (w : ResponseWriter) (durationNs : Nat) : List Event × ResponseWriter :=
  let writer := applyWrites (WrapResponseWriter w) innerWrites
  ([.addHeader "X-Gch-Request-ID" requestID,
    .serveInner,
    .logAccess r.method r.url writer.statusMethod durationNs],
   writer)

/-- The command-line flags parsed by `main`. -/
structure Flags where
  printVersion : Bool
  printDefaultConfig : Bool
  checkConfig : Bool
  buildTags : Bool
  verbose : Bool
deriving DecidableEq, Repr

/-- The configuration fields `main` branches on. -/
structure Config where
  prometheusListen : String
  listen : String
deriving DecidableEq, Repr

/-- How a run of `main` ends (or settles into serving). -/
inductive MainOutcome where
  | printedVersion
  | printedDefaultConfig
  | configChecked
  | fatalExit (err : String)
  | taggerCompleted
  | serverListening (listen : String) (routes : List (String × Handler))
deriving DecidableEq, Repr

/--
The control flow of `main` from the source, with the external calls
(`config.PrintDefaultConfig`, `config.ReadConfig`, `zapwriter.ApplyConfig`,
`zapwriter.NewManager`, `tagger.Make`, `prometheus.Run`) supplied as oracle
results: `none` means the call succeeded, `some e` that it returned error
`e`, each leading to `log.Fatal`.  The pprof listener, memory ticker and
graphite metrics goroutines have no bearing on the outcome and are omitted.
-/
def mainFlow (fl : Flags) (readConfig : Except String Config)
    (printDefaultErr applyLogErr newManagerErr taggerMakeErr promRunErr : Option String) :
    MainOutcome :=
  if fl.printVersion then .printedVersion
  else if fl.printDefaultConfig then
    match printDefaultErr with
    | some e => .fatalExit e
    | none => .printedDefaultConfig
  else
    match readConfig with
    | .error e => .fatalExit e
    | .ok cfg =>
      if fl.checkConfig then .configChecked
      else
        match applyLogErr with
        | some e => .fatalExit e
        | none =>
          match newManagerErr with
          | some e => .fatalExit e
          | none =>
            if fl.buildTags then
              match taggerMakeErr with
              | some e => .fatalExit e
              | none => .taggerCompleted
            else
              if cfg.prometheusListen ≠ "" then
                match promRunErr with
                | some e => .fatalExit e
                | none => .serverListening cfg.listen muxRoutes
              else .serverListening cfg.listen muxRoutes

end GchMain

namespace ResultCache

/--
Modelled from the spec: the outcome of one execution of a `build` closure for
the Result Cache (`build: () → (value, error)`) — either the built value or
the build error.  The cache package itself is not among the available
sources; only its caller `main` is.
-/
abbrev BuildResult := Except String Nat

/--
Modelled from the spec: the per-fingerprint `CacheEntry` state, `Building`
until the single builder resolves, then `Ready`/`Failed` (both carried by
`resolved`, holding the value or the error).
-/
inductive EntryState where
  | building
  | resolved (r : BuildResult)

/--
Modelled from the spec: the position of one caller inside `GetOrBuild`:
`idle` (no call), `start` (just entered for a fingerprint), `running`
(first caller for the fingerprint, executing `build`), `waiting` (blocked on
another caller's in-flight build of the same fingerprint), `done` (returned
with a result).
-/
inductive CallerState where
  | idle
  | start (f : Nat)
  | running (f : Nat)
  | waiting (f : Nat)
  | done (f : Nat) (r : BuildResult)

/--
Modelled from the spec: the shared state of the Result Cache under
concurrent `GetOrBuild` calls — the per-fingerprint entry table, the state
of each caller (indexed by `Nat`), and `execs f`, the number of times the
build for fingerprint `f` has executed (the spec's shared counter).
-/
structure CacheState where
  entry : Nat → Option EntryState
  caller : Nat → CallerState
  execs : Nat → Nat

/--
Modelled from the spec: the interleaving small-step semantics of
`GetOrBuild(fingerprint, build)`.  A caller entering for fingerprint `f`
either installs a fresh `Building` entry and becomes the (single) builder
(`claimEntry`, possible only when no entry for `f` exists), joins an
in-flight build as a waiter (`joinWait`), or returns a resolved entry
(`hitResolved`).  The builder executes `build` exactly once, increments the
execution counter and resolves the entry (`runBuild`); a waiter returns once
the entry is resolved (`wake`).  `builds f` is the (deterministic) result the
single execution of the build closure for `f` produces.
-/
inductive Step (builds : Nat → BuildResult) : CacheState → CacheState → Prop where
  | claimEntry (s : CacheState) (i f : Nat) :
      s.caller i = .start f → s.entry f = none →
      Step builds s
        { entry := Function.update s.entry f (some .building),
          caller := Function.update s.caller i (.running f),
          execs := s.execs }
  | joinWait (s : CacheState) (i f : Nat) :
      s.caller i = .start f → s.entry f = some .building →
      Step builds s { s with caller := Function.update s.caller i (.waiting f) }
  | hitResolved (s : CacheState) (i f : Nat) (r : BuildResult) :
      s.caller i = .start f → s.entry f = some (.resolved r) →
      Step builds s { s with caller := Function.update s.caller i (.done f r) }
  | runBuild (s : CacheState) (i f : Nat) :
      s.caller i = .running f →
      Step builds s
        { entry := Function.update s.entry f (some (.resolved (builds f))),
          caller := Function.update s.caller i (.done f (builds f)),
          execs := Function.update s.execs f (s.execs f + 1) }
  | wake (s : CacheState) (i f : Nat) (r : BuildResult) :
      s.caller i = .waiting f → s.entry f = some (.resolved r) →
      Step builds s { s with caller := Function.update s.caller i (.done f r) }

/-- Initial states: no cache entries, zero executions, every caller idle or
about to enter `GetOrBuild`. -/
def CacheInit (s : CacheState) : Prop :=
  (∀ f, s.entry f = none) ∧ (∀ f, s.execs f = 0) ∧
  (∀ i, s.caller i = .idle ∨ ∃ f, s.caller i = .start f)

/-- States reachable from `s0` by interleaved caller steps. -/
def Reachable (builds : Nat → BuildResult) (s0 s : CacheState) : Prop :=
  Relation.ReflTransGen (Step builds) s0 s

/--
The single-flight invariant: while no entry exists for `f` nothing has run
and no caller is past `start` for `f`; while `f` is `Building` the build has
not executed yet, at most one caller is the builder, and no caller has
returned for `f`; once `f` is resolved the build has executed exactly once,
the resolved result is the build's result, and no builder remains; every
result a caller returns with is the result of the single build.
-/
def Inv (builds : Nat → BuildResult) (s : CacheState) : Prop :=
  (∀ f, s.entry f = none →
    s.execs f = 0 ∧
    ∀ i, s.caller i ≠ .running f ∧ s.caller i ≠ .waiting f ∧
      ∀ r, s.caller i ≠ .done f r) ∧
  (∀ f, s.entry f = some .building →
    s.execs f = 0 ∧
    (∀ i j, s.caller i = .running f → s.caller j = .running f → i = j) ∧
    (∀ i r, s.caller i ≠ .done f r)) ∧
  (∀ f r, s.entry f = some (.resolved r) →
    s.execs f = 1 ∧ r = builds f ∧ ∀ i, s.caller i ≠ .running f) ∧
  (∀ i f r, s.caller i = .done f r → r = builds f)

/-- A concrete build table: every fingerprint builds to the value `42`. -/
def builds0 : Nat → BuildResult := fun _ => .ok 42

/-- A concrete initial state: callers `0` and `1` both about to enter
`GetOrBuild` for fingerprint `7`, everything else idle and empty. -/
def cacheS0 : CacheState :=
  ⟨fun _ => none, fun i => if i ≤ 1 then .start 7 else .idle, fun _ => 0⟩

/-- Caller `0` wins the race and installs the `Building` entry for `7`. -/
def cacheS1 : CacheState :=
  { entry := Function.update cacheS0.entry 7 (some .building),
    caller := Function.update cacheS0.caller 0 (.running 7),
    execs := cacheS0.execs }

/-- Caller `1` observes the in-flight build and blocks as a waiter. -/
def cacheS2 : CacheState :=
  { cacheS1 with caller := Function.update cacheS1.caller 1 (.waiting 7) }

/-- Caller `0` executes the build once and resolves the entry. -/
def cacheS3 : CacheState :=
  { entry := Function.update cacheS2.entry 7 (some (.resolved (builds0 7))),
    caller := Function.update cacheS2.caller 0 (.done 7 (builds0 7)),
    execs := Function.update cacheS2.execs 7 (cacheS2.execs 7 + 1) }

/-- Caller `1` wakes with the resolved result. -/
def cacheS4 : CacheState :=
  { cacheS3 with caller := Function.update cacheS3.caller 1 (.done 7 (builds0 7)) }

end ResultCache

namespace PatternModel

/-- Modelled from the spec: the operators of a `TagFilter`,
`op ∈ \x7b=, !=, =~, !=~\x7d`. -/
inductive TagOp where
  | eq
  | ne
  | matchRe
  | notMatchRe
deriving DecidableEq, Repr

/-- Modelled from the spec: one `TagFilter\x7bkey, op, value\x7d` of a
compiled tag-filter expression. -/
structure TagFilter where
  key : String
  op : TagOp
  value : String
deriving DecidableEq, Repr

/-- Modelled from the spec: one segment matcher of a compiled pattern —
`Literal`, `AnyOne` (`?`), `AnySet\x7bchars\x7d` (`[...]`), or
`Alternation\x7boptions\x7d` (brace alternation, expanded to a bounded set of
options at compile time). -/
inductive SegMatcher where
  | literal (s : String)
  | anyOne
  | anySet (chars : List Char)
  | alternation (options : List String)
deriving DecidableEq, Repr

/-- Modelled from the spec: position of the at-most-one `Recurse` node
(a leading or trailing recursive wildcard matching zero or more whole
segments). -/
inductive RecursePos where
  | nowhere
  | leading
  | trailing
deriving DecidableEq, Repr

/-- Modelled from the spec: the compiled, immutable `PatternNode` — a
sequence of segment matchers plus an optional conjunctive set of tag
filters, canonicalized on construction. -/
structure PatternNode where
  recursePos : RecursePos
  segs : List SegMatcher
  tagFilters : List TagFilter
deriving DecidableEq, Repr

/-- Modelled from the spec: the `CompileError` taxonomy — a second recursive
wildcard is `AmbiguousRecursion`, a regex operand outside the supported
subset (e.g. a backreference) is `UnsupportedRegex`; malformed input is
always user-caused. -/
inductive CompileError where
  | ambiguousRecursion
  | unsupportedRegex
  | malformedTagFilter
  | emptyPattern
deriving DecidableEq, Repr

instance : DecidableEq (Except CompileError PatternNode) := fun a b =>
  match a, b with
  | .ok x, .ok y =>
    if h : x = y then .isTrue (by rw [h])
    else .isFalse (fun hc => h (Except.ok.inj hc))
  | .error x, .error y =>
    if h : x = y then .isTrue (by rw [h])
    else .isFalse (fun hc => h (Except.error.inj hc))
  | .ok _, .error _ => .isFalse (fun hc => Except.noConfusion hc)
  | .error _, .ok _ => .isFalse (fun hc => Except.noConfusion hc)

/-- Split a character list on a separator character (splitting on the path
separator `.` or the option separator `,`). -/
def splitOnChar (c : Char) : List Char → List (List Char)
  | [] => [[]]
  | x :: xs =>
    let r := splitOnChar c xs
    if x = c then [] :: r
    else
      match r with
      | [] => [[x]]
      | h :: t => (x :: h) :: t

/-- Split a character list at the first occurrence of `c`, dropping it. -/
def splitAtChar (c : Char) : List Char → Option (List Char × List Char)
  | [] => none
  | x :: xs =>
    if x = c then some ([], xs)
    else
      match splitAtChar c xs with
      | none => none
      | some (a, b) => some (x :: a, b)

/-- Modelled from the spec: detection of a backreference (`\1` … `\9`) in a
regex operand, the representative construct outside the index's supported
regex subset. -/
def hasBackref : List Char → Bool
  | '\\' :: c :: rest => if c.isDigit then true else hasBackref rest
  | _ :: rest => hasBackref rest
  | [] => false

/-- Computable lexicographic comparison of character lists, the canonical
order used when sorting alternation options. -/
def charsLe : List Char → List Char → Bool
  | [], _ => true
  | _ :: _, [] => false
  | a :: as, b :: bs =>
    if a < b then true
    else if b < a then false
    else charsLe as bs

/-- The canonical order on alternation options. -/
def optLe (a b : String) : Prop := charsLe a.toList b.toList = true

instance : DecidableRel optLe := fun a b =>
  (inferInstance : Decidable (charsLe a.toList b.toList = true))

/-- Ordering used to canonicalize tag filters: sorted by key. -/
def filterKeyLe (a b : TagFilter) : Prop := a.key ≤ b.key

instance : DecidableRel filterKeyLe := fun a b => by
  unfold filterKeyLe; infer_instance

instance : IsTotal TagFilter filterKeyLe := ⟨fun a b => le_total a.key b.key⟩

instance : IsTrans TagFilter filterKeyLe := ⟨fun _ _ _ hab hbc => le_trans hab hbc⟩

/-- Modelled from the spec: canonicalization of the conjunctive tag-filter
list — tag filters sorted by key. -/
def sortTagFilters (l : List TagFilter) : List TagFilter :=
  List.insertionSort filterKeyLe l

/-- Modelled from the spec: classification of one raw segment by scanning
for wildcard metacharacters; brace alternation options are sorted
(canonicalization). -/
def parseSegment (cs : List Char) : SegMatcher :=
  if cs = ['?'] then .anyOne
  else if cs.head? = some '[' ∧ cs.getLast? = some ']' ∧ 2 ≤ cs.length then
    .anySet ((cs.drop 1).dropLast)
  else if cs.head? = some '\x7b' ∧ cs.getLast? = some '\x7d' ∧ 2 ≤ cs.length then
    .alternation
      (List.insertionSort optLe
        ((splitOnChar ',' ((cs.drop 1).dropLast)).map String.mk))
  else .literal (String.mk cs)

/-- Modelled from the spec: parsing of one `key=value` / `key!=value` /
`key=~regex` / `key!=~regex` tag filter. -/
def parseTagFilter (cs : List Char) : Option TagFilter :=
  match splitAtChar '=' cs with
  | none => none
  | some (k, v) =>
    if k = [] then none
    else if k.getLast? = some '!' then
      match v with
      | '~' :: v2 => some ⟨String.mk k.dropLast, .notMatchRe, String.mk v2⟩
      | _ => some ⟨String.mk k.dropLast, .ne, String.mk v⟩
    else
      match v with
      | '~' :: v2 => some ⟨String.mk k, .matchRe, String.mk v2⟩
      | _ => some ⟨String.mk k, .eq, String.mk v⟩

/-- Modelled from the spec: parsing of the conjunctive tag-filter list, with
regex operands validated against the supported subset
(`CompileError(UnsupportedRegex)` on a backreference). -/
def parseFilters : List (List Char) → Except CompileError (List TagFilter)
  | [] => .ok []
  | c :: rest =>
    match parseTagFilter c with
    | none => .error .malformedTagFilter
    | some tf =>
      if (tf.op == .matchRe || tf.op == .notMatchRe) && hasBackref tf.value.toList then
        .error .unsupportedRegex
      else
        match parseFilters rest with
        | .error e => .error e
        | .ok tl => .ok (tf :: tl)

/-- The raw spelling of the recursive wildcard segment. -/
def recurseSeg : List Char := ['*', '*']

/-- The raw opener of a tag-filter expression, `seriesByTag(`. -/
def sbtOpen : List Char :=
  ['s', 'e', 'r', 'i', 'e', 's', 'B', 'y', 'T', 'a', 'g', '(']

/--
Modelled from the spec: compilation of the dot-split segments of a path
pattern — a leading/trailing recursive wildcard becomes the `Recurse`
position (a second occurrence is `CompileError(AmbiguousRecursion)`), and
each remaining segment is classified into its matcher, with alternation
options sorted.
-/
def compileSegs (rawSegs : List (List Char)) : Except CompileError PatternNode :=
  if 2 ≤ rawSegs.count recurseSeg then .error .ambiguousRecursion
  else if rawSegs.count recurseSeg = 1 then
    if rawSegs.head? = some recurseSeg then
      .ok ⟨.leading, (rawSegs.drop 1).map parseSegment, []⟩
    else if rawSegs.getLast? = some recurseSeg then
      .ok ⟨.trailing, rawSegs.dropLast.map parseSegment, []⟩
    else .error .ambiguousRecursion
  else .ok ⟨.nowhere, rawSegs.map parseSegment, []⟩

/--
Modelled from the spec: `Compile(rawPattern) → PatternNode | CompileError`,
over the characters of the raw pattern.  Tag-filter syntax
(`seriesByTag(...)`) is parsed into a conjunctive `TagFilter` list sorted by
key; any other pattern is split on the path separator and compiled segment
by segment.
-/
def compileChars (cs : List Char) : Except CompileError PatternNode :=
  if cs = [] then .error .emptyPattern
  else if sbtOpen.isPrefixOf cs ∧ cs.getLast? = some ')' then
    match parseFilters (splitOnChar ',' ((cs.drop sbtOpen.length).dropLast)) with
    | .error e => .error e
    | .ok fs => .ok ⟨.nowhere, [], sortTagFilters fs⟩
  else compileSegs (splitOnChar '.' cs)

/-- Modelled from the spec: `Compile` on the raw pattern string. -/
def Compile (raw : String) : Except CompileError PatternNode :=
  compileChars raw.toList

/-- One step of the order-independent character digest. -/
def fpChar (h : Nat) (c : Char) : Nat := (h * 131 + c.toNat) % 1000000007

/-- Digest of a string into the running hash. -/
def fpString (h : Nat) (s : String) : Nat := s.toList.foldl fpChar h

/-- Digest of one segment matcher. -/
def fpSeg (h : Nat) : SegMatcher → Nat
  | .literal s => fpString (fpChar h 'L') s
  | .anyOne => fpChar h '?'
  | .anySet cs => cs.foldl fpChar (fpChar h 'S')
  | .alternation opts => opts.foldl fpString (fpChar h 'A')

/-- Tag character of a tag-filter operator. -/
def opTag : TagOp → Char
  | .eq => '='
  | .ne => '!'
  | .matchRe => '~'
  | .notMatchRe => '^'

/-- Digest of one tag filter. -/
def fpFilter (h : Nat) (t : TagFilter) : Nat :=
  fpString (fpChar (fpString (fpChar h 'T') t.key) (opTag t.op)) t.value

/--
Modelled from the spec: the deterministic `Fingerprint` digest of a compiled
pattern, independent of any map/set iteration order (it folds over the
canonicalized, sorted node structure).
-/
def fingerprint (n : PatternNode) : Nat :=
  let h0 : Nat :=
    match n.recursePos with
    | .nowhere => 3
    | .leading => 5
    | .trailing => 7
  n.tagFilters.foldl fpFilter (n.segs.foldl fpSeg h0)

/-- A metric path, split on the path separator. -/
abbrev Path := List String

/-- Modelled from the spec: direct evaluation of one segment matcher on one
path segment. -/
def segMatches : SegMatcher → String → Bool
  | .literal s, t => s == t
  | .anyOne, t => t.toList.length == 1
  | .anySet cs, t =>
    match t.toList with
    | [c] => cs.contains c
    | _ => false
  | .alternation opts, t => opts.contains t

/-- Segment-by-segment matching of a list of path segments, parameterized
by the per-segment test (shared between direct evaluation and SQL-predicate
evaluation). -/
def matchSegsWith (f : α → String → Bool) : List α → List String → Bool
  | [], [] => true
  | m :: ms, x :: xs => f m x && matchSegsWith f ms xs
  | _, _ => false

/-- Matching of a whole path against a segment sequence with an optional
leading/trailing recursive wildcard (which absorbs zero or more whole
segments). -/
def matchShape (f : α → String → Bool) (pos : RecursePos) (ms : List α) (p : Path) : Bool :=
  match pos with
  | .nowhere => matchSegsWith f ms p
  | .leading => (List.range (p.length + 1)).any fun k => matchSegsWith f ms (p.drop k)
  | .trailing => (List.range (p.length + 1)).any fun k => matchSegsWith f ms (p.take k)

/-- Modelled from the spec: direct evaluation of a compiled pattern against
a path (the reference semantics the post-filter restores). -/
def pathMatches (n : PatternNode) (p : Path) : Bool :=
  matchShape segMatches n.recursePos n.segs p

/-- Modelled from the spec: the per-segment index predicates the builder can
emit — column equality for a literal, a single-character `LIKE` wildcard,
and an `IN (...)` list for literal alternation options. -/
inductive SegPred where
  | eqLit (s : String)
  | oneChar
  | inSet (options : List String)
deriving DecidableEq, Repr

/-- Modelled from the spec: the SQL predicate produced by
`BuildPredicate` — per-segment predicates under the pattern's recurse
shape, plus the date-range partition pruning bounds. -/
structure SqlPredicate where
  recursePos : RecursePos
  segPreds : List SegPred
  dateFrom : Nat
  dateUntil : Nat
deriving DecidableEq, Repr

/--
Modelled from the spec: lowering of one segment matcher to the cheapest
index predicate — `Literal` to equality, `AnyOne` to the single-character
wildcard, `Alternation` (all options literal) to `IN (...)`; an `AnySet`
character class the dialect cannot render safely degrades to the broader
single-character wildcard, the paired post-filter restoring exactness.
-/
def buildSegPred : SegMatcher → SegPred
  | .literal s => .eqLit s
  | .anyOne => .oneChar
  | .anySet _ => .oneChar
  | .alternation opts => .inSet opts

/-- Evaluation of one per-segment index predicate on one path segment. -/
def evalSegPred : SegPred → String → Bool
  | .eqLit s, t => s == t
  | .oneChar, t => t.toList.length == 1
  | .inSet opts, t => opts.contains t

/-- The set of paths the SQL predicate admits. -/
def evalPredicate (q : SqlPredicate) (p : Path) : Bool :=
  matchShape evalSegPred q.recursePos q.segPreds p

/--
Modelled from the spec:
`BuildPredicate(PatternNode, dateRange) → (SQLPredicate, PostFilter)`.  The
post-filter is the compiled pattern itself, to be re-applied client-side to
the returned path set.
-/
def BuildPredicate (n : PatternNode) (dateRange : Nat × Nat) : SqlPredicate × PatternNode :=
  (⟨n.recursePos, n.segs.map buildSegPred, dateRange.1, dateRange.2⟩, n)

/-- Modelled from the spec: the post-filter pass — direct evaluation of the
pattern applied to the candidate path set returned by the store. -/
def applyPostFilter (n : PatternNode) (candidates : List Path) : List Path :=
  candidates.filter fun p => pathMatches n p

end PatternModel

namespace RenderModel

/-- Modelled from the spec: one output `SeriesPoint`
`(timestamp, value, present)`; `present = false` is a gap, distinct from a
value of zero. -/
structure SeriesPoint where
  timestamp : Nat
  value : ℚ
  present : Bool
deriving DecidableEq, Repr

/-- Modelled from the spec: the configured consolidation functions
(sum/avg/max/min/last — avg is the default). -/
inductive AggMethod where
  | sum
  | avg
  | max
  | min
  | last
deriving DecidableEq, Repr

/-- Modelled from the spec: consolidation of the raw values landing in one
bucket (aggregation in exact rational arithmetic standing in for the
floating-point computation; only ever applied to a non-empty value list). -/
def consolidate : AggMethod → List ℚ → ℚ
  | .sum, vs => vs.sum
  | .avg, vs => vs.sum / vs.length
  | .max, [] => 0
  | .max, v :: vs => vs.foldl Max.max v
  | .min, [] => 0
  | .min, v :: vs => vs.foldl Min.min v
  | .last, vs => vs.getLastD 0

/-- Modelled from the spec: the bucket a raw timestamp falls into — floor
division from `start` by the target step. -/
def bucketIndex (start step t : Nat) : Nat := (t - start) / step

/--
Modelled from the spec: the Render Pipeline's alignment step.  Every raw
`(timestamp, value)` point at or after `start` is bucketed into the target
step by floor division from `start`; multiple raw points in one bucket are
consolidated with the configured aggregation; a bucket containing no raw
point is marked `present = false` (never emitted as the value zero).
-/
def alignPoints (raw : List (Nat × ℚ)) (start step numBuckets : Nat)
    (m : AggMethod) : List SeriesPoint :=
  (List.range numBuckets).map fun i =>
    let vs := (raw.filter fun pt =>
      decide (start ≤ pt.1) && (bucketIndex start step pt.1 == i)).map Prod.snd
    if vs.isEmpty then ⟨start + i * step, 0, false⟩
    else ⟨start + i * step, consolidate m vs, true⟩

end RenderModel

namespace ClusterExec

/-- Modelled from the spec: the outcome of querying one replica host of a
shard — `none` on failure (network error, non-2xx, or deadline exceeded),
`some rows` on success. -/
abbrev ReplicaOutcome := Option (List String)

/-- Modelled from the spec: one shard of the cluster with the outcomes of
its replica hosts, primary first. -/
structure Shard where
  name : String
  replicas : List ReplicaOutcome
deriving DecidableEq, Repr

/-- Modelled from the spec: the per-shard failover policy — query the
primary replica; if it fails and a spare exists, retry once on the spare
before marking the shard failed. -/
def shardResult (s : Shard) : Option (List String) :=
  match s.replicas with
  | [] => none
  | r1 :: rest =>
    match r1 with
    | some rows => some rows
    | none =>
      match rest with
      | [] => none
      | r2 :: _ => r2

/-- Modelled from the spec: the `ExecError` kinds surfaced by the Cluster
Executor. -/
inductive ExecErrorKind where
  | partialClusterFailure
deriving DecidableEq, Repr

/-- Modelled from the spec: result of `Execute` — the merged result set, or
an `ExecError` naming the failed shards. -/
inductive ExecResult where
  | ok (rows : List String)
  | execError (kind : ExecErrorKind) (failedShards : List String)
deriving DecidableEq, Repr

/--
Modelled from the spec: `Execute(SQLPredicate, ClusterDescriptor, ctx)`
restricted to its shard fan-out/merge/failover logic.  Every required shard
is queried (with one failover retry per shard); if any shard fails after
failover, the whole request fails with
`ExecError(PartialClusterFailure, failedShards)`; otherwise the per-shard
responses are merged by set union with de-duplication.
-/
def Execute (shards : List Shard) : ExecResult :=
  let failed := shards.filter fun s => (shardResult s).isNone
  if failed.isEmpty then
    .ok (shards.foldr (fun s acc => ((shardResult s).getD []).union acc) [])
  else
    .execError .partialClusterFailure (failed.map Shard.name)

end ClusterExec

namespace GchMain

theorem status_field_writeHeader (inner : ResponseWriter) (st s : Int) (c : Bool) :
    (ResponseWriter.log inner st c).writeHeader s =
      .log (inner.writeHeader s) s c := rfl

/-- After a sequence of `WriteHeader` calls ending in status `s`, the
`status` field of a log writer holds `s` (the most recent write). -/
theorem applyWrites_log_status (cs : List Int) (s : Int) :
    ∀ (inner : ResponseWriter) (st : Int) (c : Bool),
      ∃ inner2, applyWrites (.log inner st c) (cs ++ [s]) = .log inner2 s c := by
  induction cs with
  | nil =>
    intro inner st c
    exact ⟨inner.writeHeader s, rfl⟩
  | cons a tl ih =>
    intro inner st c
    simpa [applyWrites, ResponseWriter.writeHeader] using ih (inner.writeHeader a) a c

/-- `Status` never reports the zero status, on any log writer. -/
theorem statusMethod_ne_zero (w : ResponseWriter) : w.statusMethod ≠ some (0 : Int) := by
  cases w with
  | base h ws => simp [ResponseWriter.statusMethod]
  | log inner st c =>
    simp only [ResponseWriter.statusMethod, Option.some.injEq]
    by_cases h : st = 0 <;> simp [h]

/-- Applying a sequence of `WriteHeader` calls to a log writer yields a log
writer with the same `cached` flag. -/
theorem applyWrites_log (cs : List Int) :
    ∀ (inner : ResponseWriter) (st : Int) (c : Bool),
      ∃ i2 st2, applyWrites (.log inner st c) cs = .log i2 st2 c := by
  induction cs with
  | nil => intro inner st c; exact ⟨inner, st, rfl⟩
  | cons a tl ih =>
    intro inner st c
    simpa [applyWrites, ResponseWriter.writeHeader] using ih (inner.writeHeader a) a c

/--
C9: `WrapResponseWriter` is idempotent — a writer that is already a
`*LogResponseWriter` is returned unchanged (no nested wrapping), hence
wrapping twice equals wrapping once for every writer.
-/
theorem wrapResponseWriter_idempotent :
    (∀ w : ResponseWriter, w.isLogWriter → WrapResponseWriter w = w) ∧
    (∀ w : ResponseWriter, WrapResponseWriter (WrapResponseWriter w) = WrapResponseWriter w) := by
  constructor
  · intro w h
    cases w with
    | base hd ws => exact absurd h (by simp [ResponseWriter.isLogWriter])
    | log i st c => rfl
  · intro w
    cases w <;> rfl

/-- Witness for C9 at a concrete wrapped and a concrete bare writer. -/
theorem wrapResponseWriter_idempotent_witness :
    WrapResponseWriter (.log (.base [] []) 0 false) = .log (.base [] []) 0 false ∧
    WrapResponseWriter (WrapResponseWriter (.base [] [])) = WrapResponseWriter (.base [] []) :=
  ⟨wrapResponseWriter_idempotent.1 (.log (.base [] []) 0 false) trivial,
   wrapResponseWriter_idempotent.2 (.base [] [])⟩

/--
C10: on a `LogResponseWriter`, `Status()` returns `200` when `WriteHeader`
was never called (the `status` field still holds its zero value), otherwise
the status passed to the most recent `WriteHeader` call; a zero recorded
status is never returned.
-/
theorem logResponseWriter_status (u : ResponseWriter) (c : Bool) :
    ((ResponseWriter.log u 0 c).statusMethod = some 200) ∧
    (∀ (cs : List Int) (s : Int), s ≠ 0 →
      (applyWrites (.log u 0 c) (cs ++ [s])).statusMethod = some s) ∧
    (∀ w : ResponseWriter, w.statusMethod ≠ some 0) := by
  refine ⟨rfl, ?_, statusMethod_ne_zero⟩
  intro cs s hs
  obtain ⟨i2, h2⟩ := applyWrites_log_status cs s u 0 c
  rw [h2]
  simp [ResponseWriter.statusMethod, hs]

/-- Witness for C10: a fresh wrapped writer reports 200; after writes 500
then 404 it reports 404. -/
theorem logResponseWriter_status_witness :
    ((ResponseWriter.log (.base [] []) 0 false).statusMethod = some 200) ∧
    (applyWrites (.log (.base [] []) 0 false) ([500] ++ [404])).statusMethod = some 404 :=
  ⟨(logResponseWriter_status (.base [] []) false).1,
   (logResponseWriter_status (.base [] []) false).2.1 [500] 404 (by decide)⟩

/--
C8: for every request through `App.Handler` — whatever statuses the wrapped
handler writes, server errors included — the `X-Gch-Request-ID` header with
the request-scope id is added before the wrapped handler is served, and
afterwards a single access log line is emitted carrying the request method,
URL, the writer's `Status()` and the measured duration; the logged status is
a real one (never `0`, never missing).
-/
theorem appHandler_header_then_log (rid : String) (ws : List Int) (r : Request)
    (w : ResponseWriter) (d : Nat) :
    ∃ st : Option Int,
      (appHandler rid ws r w d).1 =
        [.addHeader "X-Gch-Request-ID" rid, .serveInner,
         .logAccess r.method r.url st d] ∧
      st = (applyWrites (WrapResponseWriter w) ws).statusMethod ∧
      st ≠ some 0 ∧ st ≠ none := by
  refine ⟨(applyWrites (WrapResponseWriter w) ws).statusMethod, rfl, rfl,
    statusMethod_ne_zero _, ?_⟩
  have hlog : ∃ i2 st2 c2, applyWrites (WrapResponseWriter w) ws = .log i2 st2 c2 := by
    cases w with
    | base hd ss =>
      obtain ⟨i2, st2, h2⟩ := applyWrites_log ws (.base hd ss) 0 false
      exact ⟨i2, st2, false, h2⟩
    | log i st c =>
      obtain ⟨i2, st2, h2⟩ := applyWrites_log ws i st c
      exact ⟨i2, st2, c, h2⟩
  obtain ⟨i2, st2, c2, h2⟩ := hlog
  rw [h2]
  simp [ResponseWriter.statusMethod]

/--
C7: the HTTP mux built by `main` routes each request kind to its dedicated
handler wrapped in the access-logging `app.Handler`: `/metrics/find/` to the
find handler, `/render/` to the render handler, `/tags/autoComplete/tags`
to the tag-name autocomplete handler and `/tags/autoComplete/values` to the
tag-value autocomplete handler (slash-terminated patterns matching by
longest prefix, as `http.ServeMux` does).
-/
theorem mux_dispatch_handlers :
    muxDispatch muxRoutes "/metrics/find/" = some (.accessLog .find) ∧
    muxDispatch muxRoutes "/metrics/find/a.b.c" = some (.accessLog .find) ∧
    muxDispatch muxRoutes "/render/" = some (.accessLog .render) ∧
    muxDispatch muxRoutes "/render/q" = some (.accessLog .render) ∧
    muxDispatch muxRoutes "/tags/autoComplete/tags" = some (.accessLog .autocompleteTags) ∧
    muxDispatch muxRoutes "/tags/autoComplete/values" = some (.accessLog .autocompleteValues) := by
  decide

/--
C6: with the tags build flag set (and the earlier print/check short-circuit
flags clear, the configuration and logging setup succeeding), `main` invokes
`tagger.Make` as an offline batch and returns — it never reaches the HTTP
server with its handler table — and if the build errs the process ends
fatally with that error.
-/
theorem main_buildTags_offline (fl : Flags) (cfgRes : Except String Config)
    (pdErr alErr nmErr tgErr prErr : Option String) (cfg : Config)
    (h1 : fl.printVersion = false) (h2 : fl.printDefaultConfig = false)
    (h3 : cfgRes = .ok cfg) (h4 : fl.checkConfig = false)
    (h5 : alErr = none) (h6 : nmErr = none) (h7 : fl.buildTags = true) :
    (tgErr = none →
      mainFlow fl cfgRes pdErr alErr nmErr tgErr prErr = .taggerCompleted) ∧
    (∀ e, tgErr = some e →
      mainFlow fl cfgRes pdErr alErr nmErr tgErr prErr = .fatalExit e) ∧
    (∀ l routes,
      mainFlow fl cfgRes pdErr alErr nmErr tgErr prErr ≠ .serverListening l routes) := by
  subst h3 h5 h6
  refine ⟨?_, ?_, ?_⟩
  · intro ht
    subst ht
    simp [mainFlow, h1, h2, h4, h7]
  · intro e ht
    subst ht
    simp [mainFlow, h1, h2, h4, h7]
  · intro l routes
    cases ht : tgErr with
    | none => simp [mainFlow, h1, h2, h4, h7]
    | some e => simp [mainFlow, h1, h2, h4, h7]

/-- Witness for C6 at concrete flags, config and oracle results. -/
theorem main_buildTags_offline_witness :
    (mainFlow ⟨false, false, false, true, false⟩ (.ok ⟨"", ":9090"⟩)
        none none none none none = .taggerCompleted) ∧
    (mainFlow ⟨false, false, false, true, false⟩ (.ok ⟨"", ":9090"⟩)
        none none none (some "boom") none = .fatalExit "boom") ∧
    (mainFlow ⟨false, false, false, true, false⟩ (.ok ⟨"", ":9090"⟩)
        none none none none none ≠ .serverListening ":9090" muxRoutes) := by
  have h1 := main_buildTags_offline ⟨false, false, false, true, false⟩
    (.ok ⟨"", ":9090"⟩) none none none none none ⟨"", ":9090"⟩
    rfl rfl rfl rfl rfl rfl rfl
  have h2 := main_buildTags_offline ⟨false, false, false, true, false⟩
    (.ok ⟨"", ":9090"⟩) none none none (some "boom") none ⟨"", ":9090"⟩
    rfl rfl rfl rfl rfl rfl rfl
  exact ⟨h1.1 rfl, h2.2.1 "boom" rfl, h1.2.2 ":9090" muxRoutes⟩

end GchMain

namespace ClusterExec

/-- A shard all of whose replicas fail yields no shard result, even after
the failover retry. -/
theorem shardResult_none_of_all_fail (s : Shard)
    (h : ∀ r ∈ s.replicas, r = none) : shardResult s = none := by
  unfold shardResult
  cases hr : s.replicas with
  | nil => rfl
  | cons r1 rest =>
    have h1 : r1 = none := h r1 (hr ▸ List.mem_cons_self r1 rest)
    subst h1
    cases hrest : rest with
    | nil => rfl
    | cons r2 rest2 =>
      have h2 : r2 = none := by
        refine h r2 ?_
        rw [hr, hrest]
        exact List.mem_cons_of_mem _ (List.mem_cons_self r2 rest2)
      subst h2
      rfl

/--
C4: if every replica of some required shard fails, `Execute` returns
`ExecError(PartialClusterFailure, failedShards)` with that shard among the
failed shards — it never returns the merged rows of the surviving shards as
a complete success.
-/
theorem execute_partial_failure (shards : List Shard) (s : Shard)
    (hmem : s ∈ shards) (hfail : ∀ r ∈ s.replicas, r = none) :
    ∃ fs, Execute shards = .execError .partialClusterFailure fs ∧
      s.name ∈ fs ∧ ∀ rows, Execute shards ≠ .ok rows := by
  have hnone : shardResult s = none := shardResult_none_of_all_fail s hfail
  have hsf : s ∈ shards.filter fun t => (shardResult t).isNone := by
    refine List.mem_filter.mpr ⟨hmem, ?_⟩
    simp [hnone]
  have hne : (shards.filter fun t => (shardResult t).isNone) ≠ [] :=
    List.ne_nil_of_mem hsf
  have hemp : (shards.filter fun t => (shardResult t).isNone).isEmpty = false := by
    cases hl : shards.filter fun t => (shardResult t).isNone with
    | nil => exact absurd hl hne
    | cons a tl => rfl
  refine ⟨(shards.filter fun t => (shardResult t).isNone).map Shard.name, ?_, ?_, ?_⟩
  · unfold Execute
    simp only [hemp, Bool.false_eq_true, if_false]
  · exact List.mem_map.mpr ⟨s, hsf, rfl⟩
  · intro rows hok
    unfold Execute at hok
    simp only [hemp, Bool.false_eq_true, if_false] at hok
    exact ExecResult.noConfusion hok

/-- Witness for C4: shard `A` succeeds while shard `B` exhausts both of its
replicas; the call fails with `PartialClusterFailure` naming `B`. -/
theorem execute_partial_failure_witness :
    ∃ fs, Execute [⟨"A", [some ["a1"]]⟩, ⟨"B", [none, none]⟩] =
        .execError .partialClusterFailure fs ∧
      "B" ∈ fs ∧
      ∀ rows, Execute [⟨"A", [some ["a1"]]⟩, ⟨"B", [none, none]⟩] ≠ .ok rows :=
  execute_partial_failure [⟨"A", [some ["a1"]]⟩, ⟨"B", [none, none]⟩]
    ⟨"B", [none, none]⟩ (by decide) (by decide)

end ClusterExec

namespace RenderModel

/-- Unfolding of one bucket of the alignment output. -/
theorem alignPoints_get (raw : List (Nat × ℚ)) (start step n : Nat)
    (m : AggMethod) (i : Nat) (hi : i < n) :
    (alignPoints raw start step n m).get? i =
      some (let vs := (raw.filter fun pt =>
          decide (start ≤ pt.1) && (bucketIndex start step pt.1 == i)).map Prod.snd
        if vs.isEmpty then ⟨start + i * step, 0, false⟩
        else ⟨start + i * step, consolidate m vs, true⟩) := by
  unfold alignPoints
  rw [List.get?_map, List.get?_range hi]
  rfl

/--
C3: the Render Pipeline's alignment — the raw points
`(t=5,v=1), (t=7,v=3)` with `start=0, step=10` produce the single output
bucket at `t=0` carrying the configured aggregation of `\x7b1,3\x7d` (with
`avg`, the value `2`); and in every render, a bucket containing no raw
point is marked `present = false`, never emitted as the value zero.
-/
theorem render_alignment_avg_and_gaps :
    (alignPoints [(5, 1), (7, 3)] 0 10 1 .avg =
      [{ timestamp := 0, value := 2, present := true }]) ∧
    (∀ (raw : List (Nat × ℚ)) (start step n : Nat) (m : AggMethod) (i : Nat)
      (pt : SeriesPoint),
      (∀ x ∈ raw, ¬(start ≤ x.1 ∧ bucketIndex start step x.1 = i)) →
      (alignPoints raw start step n m).get? i = some pt →
      pt.present = false) := by
  constructor
  · unfold alignPoints
    norm_num [bucketIndex, consolidate, List.range_succ, List.filter, List.isEmpty]
  · intro raw start step n m i pt hgap hget
    have hi : i < n := by
      by_contra hn
      push_neg at hn
      have : (alignPoints raw start step n m).get? i = none := by
        refine List.get?_eq_none.mpr ?_
        unfold alignPoints
        simpa using hn
      rw [this] at hget
      exact Option.noConfusion hget
    rw [alignPoints_get raw start step n m i hi] at hget
    have hfil : (raw.filter fun pt =>
        decide (start ≤ pt.1) && (bucketIndex start step pt.1 == i)) = [] := by
      refine List.filter_eq_nil_iff.mpr ?_
      intro x hx
      have hng := hgap x hx
      simp only [Bool.and_eq_true, decide_eq_true_eq, beq_iff_eq]
      intro hc
      exact hng ⟨hc.1, hc.2⟩
    rw [hfil] at hget
    simp only [List.map_nil, List.isEmpty_nil, if_true] at hget
    have hpt := Option.some.inj hget
    rw [← hpt]

/-- Witness for C3's gap clause: with a single raw point in bucket 0 and two
output buckets, bucket 1 is absent. -/
theorem render_alignment_gap_witness :
    ((alignPoints [(5, 1)] 0 10 2 .avg).get? 1 = some ⟨10, 0, false⟩) ∧
    SeriesPoint.present ⟨10, 0, false⟩ = false :=
  ⟨by decide,
   render_alignment_avg_and_gaps.2 [(5, 1)] 0 10 2 .avg 1 ⟨10, 0, false⟩
     (by decide) (by decide)⟩

end RenderModel

namespace PatternModel

/-- Per-segment soundness of the lowering: the index predicate emitted for a
matcher admits every segment the matcher admits (the `AnySet` case is where
the predicate is strictly broader). -/
theorem segPred_superset (m : SegMatcher) (t : String)
    (h : segMatches m t = true) : evalSegPred (buildSegPred m) t = true := by
  cases m with
  | literal s => exact h
  | anyOne => exact h
  | anySet cs =>
    simp only [segMatches] at h
    simp only [buildSegPred, evalSegPred]
    cases ht : t.toList with
    | nil => rw [ht] at h; exact Bool.noConfusion h
    | cons c tl =>
      cases tl with
      | nil => rfl
      | cons d tl2 => rw [ht] at h; exact Bool.noConfusion h
  | alternation opts => exact h

/-- Segment-sequence soundness of the lowering. -/
theorem matchSegsWith_superset (ms : List SegMatcher) :
    ∀ p : List String, matchSegsWith segMatches ms p = true →
      matchSegsWith evalSegPred (ms.map buildSegPred) p = true := by
  induction ms with
  | nil =>
    intro p h
    cases p with
    | nil => exact h
    | cons x xs => exact Bool.noConfusion h
  | cons m ms ih =>
    intro p h
    cases p with
    | nil => exact Bool.noConfusion h
    | cons x xs =>
      simp only [matchSegsWith, Bool.and_eq_true] at h
      simp only [List.map, matchSegsWith, Bool.and_eq_true]
      exact ⟨segPred_superset m x h.1, ih xs h.2⟩

/-- Whole-shape soundness of the lowering, recursive wildcard included. -/
theorem matchShape_superset (pos : RecursePos) (ms : List SegMatcher)
    (p : Path) (h : matchShape segMatches pos ms p = true) :
    matchShape evalSegPred pos (ms.map buildSegPred) p = true := by
  cases pos with
  | nowhere => exact matchSegsWith_superset ms p h
  | leading =>
    simp only [matchShape, List.any_eq_true] at h ⊢
    obtain ⟨k, hk, hm⟩ := h
    exact ⟨k, hk, matchSegsWith_superset ms _ hm⟩
  | trailing =>
    simp only [matchShape, List.any_eq_true] at h ⊢
    obtain ⟨k, hk, hm⟩ := h
    exact ⟨k, hk, matchSegsWith_superset ms _ hm⟩

/--
C2: for every compiled pattern and date range, the SQL predicate produced by
`BuildPredicate` admits a superset of the set of paths matched by direct
evaluation of the pattern; and the paired `PostFilter`, applied to any
candidate list that contains every true match drawn from a reference path
list, yields exactly the set matched by direct evaluation against that
reference list.
-/
theorem buildPredicate_superset_postFilter_exact (n : PatternNode) (dr : Nat × Nat) :
    (∀ p : Path, pathMatches n p = true →
      evalPredicate (BuildPredicate n dr).1 p = true) ∧
    (∀ R L : List Path,
      (∀ x ∈ R, pathMatches n x = true → x ∈ L) →
      (∀ x ∈ L, x ∈ R) →
      ∀ x : Path, x ∈ applyPostFilter (BuildPredicate n dr).2 L ↔
        (x ∈ R ∧ pathMatches n x = true)) := by
  constructor
  · intro p h
    exact matchShape_superset n.recursePos n.segs p h
  · intro R L hsup hsub x
    constructor
    · intro hx
      rw [applyPostFilter, List.mem_filter] at hx
      exact ⟨hsub x hx.1, hx.2⟩
    · rintro ⟨hxR, hxm⟩
      rw [applyPostFilter, List.mem_filter]
      exact ⟨hsup x hxR hxm, hxm⟩

/-- Witness for C2: the pattern `a.[bc]` lowered over date range `(1, 2)` —
its predicate admits the matching path `a.b`, and the post-filter applied to
the superset the predicate returned restores the exact answer on the
reference path list. -/
theorem buildPredicate_witness :
    (evalPredicate
      (BuildPredicate ⟨.nowhere, [.literal "a", .anySet ['b', 'c']], []⟩ (1, 2)).1
      ["a", "b"] = true) ∧
    (["a", "x"] ∈ applyPostFilter
        (BuildPredicate ⟨.nowhere, [.literal "a", .anySet ['b', 'c']], []⟩ (1, 2)).2
        [["a", "b"], ["a", "x"]] ↔
      (["a", "x"] ∈ [["a", "b"], ["a", "x"], ["q"]] ∧
        pathMatches ⟨.nowhere, [.literal "a", .anySet ['b', 'c']], []⟩
          ["a", "x"] = true)) :=
  ⟨(buildPredicate_superset_postFilter_exact
      ⟨.nowhere, [.literal "a", .anySet ['b', 'c']], []⟩ (1, 2)).1
      ["a", "b"] (by decide),
   (buildPredicate_superset_postFilter_exact
      ⟨.nowhere, [.literal "a", .anySet ['b', 'c']], []⟩ (1, 2)).2
      [["a", "b"], ["a", "x"], ["q"]] [["a", "b"], ["a", "x"]]
      (by decide) (by decide) ["a", "x"]⟩

/-- `charsLe` is total. -/
theorem charsLe_total : ∀ as bs : List Char, charsLe as bs = true ∨ charsLe bs as = true := by
  intro as
  induction as with
  | nil => intro bs; exact Or.inl rfl
  | cons a as ih =>
    intro bs
    cases bs with
    | nil => exact Or.inr rfl
    | cons b bs =>
      rcases lt_trichotomy a b with hab | hab | hab
      · left
        simp [charsLe, hab]
      · subst hab
        rcases ih bs with h | h
        · left
          simp [charsLe, lt_irrefl, h]
        · right
          simp [charsLe, lt_irrefl, h]
      · right
        simp [charsLe, hab]

/-- `charsLe` is transitive. -/
theorem charsLe_trans : ∀ as bs cs : List Char,
    charsLe as bs = true → charsLe bs cs = true → charsLe as cs = true := by
  intro as
  induction as with
  | nil => intro bs cs _ _; rfl
  | cons a as ih =>
    intro bs cs h1 h2
    cases bs with
    | nil => exact Bool.noConfusion h1
    | cons b bs =>
      cases cs with
      | nil => exact Bool.noConfusion h2
      | cons c cs =>
        by_cases hab : a < b
        · by_cases hbc : b < c
          · simp [charsLe, lt_trans hab hbc]
          · by_cases hcb : c < b
            · simp [charsLe, hbc, hcb] at h2
            · have hbc2 : b = c := le_antisymm (not_lt.mp hcb) (not_lt.mp hbc)
              subst hbc2
              simp [charsLe, hab]
        · by_cases hba : b < a
          · simp [charsLe, hab, hba] at h1
          · have hba2 : a = b := le_antisymm (not_lt.mp hba) (not_lt.mp hab)
            subst hba2
            simp only [charsLe, lt_irrefl, if_false] at h1
            by_cases hbc : a < c
            · simp [charsLe, hbc]
            · by_cases hcb : c < a
              · simp [charsLe, hbc, hcb] at h2
              · have hbc2 : a = c := le_antisymm (not_lt.mp hcb) (not_lt.mp hbc)
                subst hbc2
                simp only [charsLe, lt_irrefl, if_false] at h2 ⊢
                exact ih bs cs h1 h2

instance : IsTotal String optLe := ⟨fun a b => charsLe_total a.toList b.toList⟩

instance : IsTrans String optLe :=
  ⟨fun a b c h1 h2 => charsLe_trans a.toList b.toList c.toList h1 h2⟩

/-- Compiled alternation options only ever arise sorted. -/
theorem parseSegment_alternation_sorted (cs : List Char) (opts : List String)
    (h : parseSegment cs = .alternation opts) : List.Sorted optLe opts := by
  unfold parseSegment at h
  split at h
  · exact SegMatcher.noConfusion h
  · split at h
    · exact SegMatcher.noConfusion h
    · split at h
      · have hinj := SegMatcher.alternation.inj h
        rw [← hinj]
        exact List.sorted_insertionSort _ _
      · exact SegMatcher.noConfusion h

/-- Alternation options in any mapped segment list are sorted. -/
theorem mapParse_alternation_sorted (xs : List (List Char)) :
    ∀ m ∈ xs.map parseSegment, ∀ opts, m = SegMatcher.alternation opts →
      List.Sorted optLe opts := by
  intro m hm opts hopt
  obtain ⟨cs2, _, hps⟩ := List.mem_map.mp hm
  exact parseSegment_alternation_sorted cs2 opts (hps.trans hopt)

/-- Every node the segment compiler produces is canonical. -/
theorem compileSegs_canonical (rawSegs : List (List Char)) (node : PatternNode)
    (h : compileSegs rawSegs = .ok node) :
    List.Sorted filterKeyLe node.tagFilters ∧
    (∀ m ∈ node.segs, ∀ opts, m = SegMatcher.alternation opts →
      List.Sorted optLe opts) := by
  unfold compileSegs at h
  split at h
  · exact Except.noConfusion h
  · split at h
    · split at h
      · have hinj := Except.ok.inj h
        rw [← hinj]
        exact ⟨List.sorted_nil, mapParse_alternation_sorted _⟩
      · split at h
        · have hinj := Except.ok.inj h
          rw [← hinj]
          exact ⟨List.sorted_nil, mapParse_alternation_sorted _⟩
        · exact Except.noConfusion h
    · have hinj := Except.ok.inj h
      rw [← hinj]
      exact ⟨List.sorted_nil, mapParse_alternation_sorted _⟩

/-- Every node `compileChars` produces is canonical: tag filters sorted by
key, alternation options sorted. -/
theorem compileChars_canonical (cs : List Char) (node : PatternNode)
    (h : compileChars cs = .ok node) :
    List.Sorted filterKeyLe node.tagFilters ∧
    (∀ m ∈ node.segs, ∀ opts, m = SegMatcher.alternation opts →
      List.Sorted optLe opts) := by
  unfold compileChars at h
  split at h
  · exact Except.noConfusion h
  · split at h
    · split at h
      · exact Except.noConfusion h
      · have hinj := Except.ok.inj h
        rw [← hinj]
        refine ⟨List.sorted_insertionSort _ _, ?_⟩
        intro m hm
        exact absurd hm (List.not_mem_nil m)
    · exact compileSegs_canonical _ node h

/--
C5: `Compile` is deterministic — two runs on the same source string produce
the same result, and any two successful compilations of that string yield
structurally equal `PatternNode`s with identical fingerprints; the output is
canonicalized, with tag filters sorted by key and alternation options
sorted.
-/
theorem compile_deterministic_canonical (raw : String) :
    (Compile raw = Compile raw) ∧
    (∀ n1 n2 : PatternNode, Compile raw = .ok n1 → Compile raw = .ok n2 →
      n1 = n2 ∧ fingerprint n1 = fingerprint n2) ∧
    (∀ node : PatternNode, Compile raw = .ok node →
      List.Sorted filterKeyLe node.tagFilters ∧
      (∀ m ∈ node.segs, ∀ opts, m = SegMatcher.alternation opts →
        List.Sorted optLe opts)) := by
  refine ⟨rfl, ?_, ?_⟩
  · intro n1 n2 h1 h2
    have h12 : n1 = n2 := Except.ok.inj (h1.symm.trans h2)
    exact ⟨h12, by rw [h12]⟩
  · intro node h
    exact compileChars_canonical raw.toList node h

/-- Witness for C5: the pattern `a.\x7bd,b\x7d` compiles with its
alternation options sorted, and repeated compilation agrees with itself. -/
theorem compile_deterministic_canonical_witness :
    List.Sorted filterKeyLe
      (PatternNode.tagFilters ⟨.nowhere, [.literal "a", .alternation ["b", "d"]], []⟩) ∧
    List.Sorted optLe ["b", "d"] ∧
    fingerprint ⟨.nowhere, [.literal "a", .alternation ["b", "d"]], []⟩ =
      fingerprint ⟨.nowhere, [.literal "a", .alternation ["b", "d"]], []⟩ := by
  have hok : Compile "a.\x7bd,b\x7d" =
      .ok ⟨.nowhere, [.literal "a", .alternation ["b", "d"]], []⟩ := by decide
  have h := compile_deterministic_canonical "a.\x7bd,b\x7d"
  have hc := h.2.2 _ hok
  exact ⟨hc.1, hc.2 (.alternation ["b", "d"]) (by decide) ["b", "d"] rfl,
    (h.2.1 _ _ hok hok).2⟩

end PatternModel

namespace ResultCache

/-- The single-flight invariant holds in every initial state. -/
theorem inv_init (builds : Nat → BuildResult) (s : CacheState) (h : CacheInit s) :
    Inv builds s := by
  obtain ⟨he, hx, hc⟩ := h
  refine ⟨?_, ?_, ?_, ?_⟩
  · intro f _
    refine ⟨hx f, ?_⟩
    intro i
    rcases hc i with hi | ⟨g, hi⟩
    · rw [hi]
      exact ⟨fun h2 => CallerState.noConfusion h2, fun h2 => CallerState.noConfusion h2,
        fun r h2 => CallerState.noConfusion h2⟩
    · rw [hi]
      exact ⟨fun h2 => CallerState.noConfusion h2, fun h2 => CallerState.noConfusion h2,
        fun r h2 => CallerState.noConfusion h2⟩
  · intro f hf
    rw [he f] at hf
    exact Option.noConfusion hf
  · intro f r hf
    rw [he f] at hf
    exact Option.noConfusion hf
  · intro i f r hi
    rcases hc i with h2 | ⟨g, h2⟩
    · rw [h2] at hi
      exact CallerState.noConfusion hi
    · rw [h2] at hi
      exact CallerState.noConfusion hi

/-- The single-flight invariant is preserved by every step. -/
theorem inv_step (builds : Nat → BuildResult) {s s2 : CacheState}
    (hs : Inv builds s) (hstep : Step builds s s2) : Inv builds s2 := by
  obtain ⟨A, B, C, D⟩ := hs
  cases hstep with
  | claimEntry i f hci hef =>
    refine ⟨?_, ?_, ?_, ?_⟩
    · intro g hg
      dsimp only at hg ⊢
      by_cases hgf : g = f
      · subst hgf
        rw [Function.update_same] at hg
        exact Option.noConfusion hg
      · rw [Function.update_noteq hgf] at hg
        obtain ⟨hex, hcall⟩ := A g hg
        refine ⟨hex, ?_⟩
        intro j
        by_cases hji : j = i
        · subst hji
          rw [Function.update_same]
          refine ⟨?_, ?_, ?_⟩
          · intro hc
            exact hgf (CallerState.running.inj hc).symm
          · intro hc
            exact CallerState.noConfusion hc
          · intro r hc
            exact CallerState.noConfusion hc
        · rw [Function.update_noteq hji]
          exact hcall j
    · intro g hg
      dsimp only at hg ⊢
      by_cases hgf : g = f
      · subst hgf
        obtain ⟨hex, hcall⟩ := A g hef
        refine ⟨hex, ?_, ?_⟩
        · intro j k hj hk
          by_cases hji : j = i
          · by_cases hki : k = i
            · rw [hji, hki]
            · rw [Function.update_noteq hki] at hk
              exact absurd hk (hcall k).1
          · rw [Function.update_noteq hji] at hj
            exact absurd hj (hcall j).1
        · intro j r
          by_cases hji : j = i
          · subst hji
            rw [Function.update_same]
            intro hc
            exact CallerState.noConfusion hc
          · rw [Function.update_noteq hji]
            exact ((hcall j).2.2) r
      · rw [Function.update_noteq hgf] at hg
        obtain ⟨hex, huniq, hdone⟩ := B g hg
        refine ⟨hex, ?_, ?_⟩
        · intro j k hj hk
          by_cases hji : j = i
          · subst hji
            rw [Function.update_same] at hj
            exact absurd (CallerState.running.inj hj).symm hgf
          · by_cases hki : k = i
            · subst hki
              rw [Function.update_same] at hk
              exact absurd (CallerState.running.inj hk).symm hgf
            · rw [Function.update_noteq hji] at hj
              rw [Function.update_noteq hki] at hk
              exact huniq j k hj hk
        · intro j r
          by_cases hji : j = i
          · subst hji
            rw [Function.update_same]
            intro hc
            exact CallerState.noConfusion hc
          · rw [Function.update_noteq hji]
            exact hdone j r
    · intro g r hg
      dsimp only at hg ⊢
      by_cases hgf : g = f
      · subst hgf
        rw [Function.update_same] at hg
        exact EntryState.noConfusion (Option.some.inj hg)
      · rw [Function.update_noteq hgf] at hg
        obtain ⟨hex, hr, hnorun⟩ := C g r hg
        refine ⟨hex, hr, ?_⟩
        intro j
        by_cases hji : j = i
        · subst hji
          rw [Function.update_same]
          intro hc
          exact hgf (CallerState.running.inj hc).symm
        · rw [Function.update_noteq hji]
          exact hnorun j
    · intro j g r hj
      dsimp only at hj
      by_cases hji : j = i
      · subst hji
        rw [Function.update_same] at hj
        exact CallerState.noConfusion hj
      · rw [Function.update_noteq hji] at hj
        exact D j g r hj
  | joinWait i f hci hef =>
    refine ⟨?_, ?_, ?_, ?_⟩
    · intro g hg
      dsimp only at hg ⊢
      obtain ⟨hex, hcall⟩ := A g hg
      refine ⟨hex, ?_⟩
      intro j
      by_cases hji : j = i
      · subst hji
        rw [Function.update_same]
        have hgf : g ≠ f := by
          intro hco
          rw [hco, hef] at hg
          exact Option.noConfusion hg
        refine ⟨fun hc => CallerState.noConfusion hc, ?_, ?_⟩
        · intro hc
          exact hgf (CallerState.waiting.inj hc).symm
        · intro r hc
          exact CallerState.noConfusion hc
      · rw [Function.update_noteq hji]
        exact hcall j
    · intro g hg
      dsimp only at hg ⊢
      obtain ⟨hex, huniq, hdone⟩ := B g hg
      refine ⟨hex, ?_, ?_⟩
      · intro j k hj hk
        by_cases hji : j = i
        · subst hji
          rw [Function.update_same] at hj
          exact CallerState.noConfusion hj
        · by_cases hki : k = i
          · subst hki
            rw [Function.update_same] at hk
            exact CallerState.noConfusion hk
          · rw [Function.update_noteq hji] at hj
            rw [Function.update_noteq hki] at hk
            exact huniq j k hj hk
      · intro j r
        by_cases hji : j = i
        · subst hji
          rw [Function.update_same]
          exact fun hc => CallerState.noConfusion hc
        · rw [Function.update_noteq hji]
          exact hdone j r
    · intro g r hg
      dsimp only at hg ⊢
      obtain ⟨hex, hr, hnorun⟩ := C g r hg
      refine ⟨hex, hr, ?_⟩
      intro j
      by_cases hji : j = i
      · subst hji
        rw [Function.update_same]
        exact fun hc => CallerState.noConfusion hc
      · rw [Function.update_noteq hji]
        exact hnorun j
    · intro j g r hj
      dsimp only at hj
      by_cases hji : j = i
      · subst hji
        rw [Function.update_same] at hj
        exact CallerState.noConfusion hj
      · rw [Function.update_noteq hji] at hj
        exact D j g r hj
  | hitResolved i f r0 hci hef =>
    refine ⟨?_, ?_, ?_, ?_⟩
    · intro g hg
      dsimp only at hg ⊢
      obtain ⟨hex, hcall⟩ := A g hg
      have hgf : g ≠ f := by
        intro hco
        rw [hco, hef] at hg
        exact Option.noConfusion hg
      refine ⟨hex, ?_⟩
      intro j
      by_cases hji : j = i
      · subst hji
        rw [Function.update_same]
        refine ⟨fun hc => CallerState.noConfusion hc,
          fun hc => CallerState.noConfusion hc, ?_⟩
        intro r2 hc
        injection hc with h1 h2
        exact hgf h1.symm
      · rw [Function.update_noteq hji]
        exact hcall j
    · intro g hg
      dsimp only at hg ⊢
      obtain ⟨hex, huniq, hdone⟩ := B g hg
      have hgf : g ≠ f := by
        intro hco
        rw [hco, hef] at hg
        exact EntryState.noConfusion (Option.some.inj hg)
      refine ⟨hex, ?_, ?_⟩
      · intro j k hj hk
        by_cases hji : j = i
        · subst hji
          rw [Function.update_same] at hj
          exact CallerState.noConfusion hj
        · by_cases hki : k = i
          · subst hki
            rw [Function.update_same] at hk
            exact CallerState.noConfusion hk
          · rw [Function.update_noteq hji] at hj
            rw [Function.update_noteq hki] at hk
            exact huniq j k hj hk
      · intro j r2
        by_cases hji : j = i
        · subst hji
          rw [Function.update_same]
          intro hc
          injection hc with h1 h2
          exact hgf h1.symm
        · rw [Function.update_noteq hji]
          exact hdone j r2
    · intro g r2 hg
      dsimp only at hg ⊢
      obtain ⟨hex, hr2, hnorun⟩ := C g r2 hg
      refine ⟨hex, hr2, ?_⟩
      intro j
      by_cases hji : j = i
      · subst hji
        rw [Function.update_same]
        exact fun hc => CallerState.noConfusion hc
      · rw [Function.update_noteq hji]
        exact hnorun j
    · intro j g r2 hj
      dsimp only at hj
      by_cases hji : j = i
      · subst hji
        rw [Function.update_same] at hj
        injection hj with h1 h2
        rw [← h2, ← h1]
        exact (C f r0 hef).2.1
      · rw [Function.update_noteq hji] at hj
        exact D j g r2 hj
  | runBuild i f hri =>
    have hbf : s.entry f = some .building := by
      cases he : s.entry f with
      | none => exact absurd hri ((A f he).2 i).1
      | some es =>
        cases es with
        | building => rfl
        | resolved r => exact absurd hri ((C f r he).2.2 i)
    obtain ⟨hexf, huniqf, hdonef⟩ := B f hbf
    refine ⟨?_, ?_, ?_, ?_⟩
    · intro g hg
      dsimp only at hg ⊢
      by_cases hgf : g = f
      · subst hgf
        rw [Function.update_same] at hg
        exact Option.noConfusion hg
      · rw [Function.update_noteq hgf] at hg
        obtain ⟨hex, hcall⟩ := A g hg
        refine ⟨?_, ?_⟩
        · rw [Function.update_noteq hgf]
          exact hex
        · intro j
          by_cases hji : j = i
          · subst hji
            rw [Function.update_same]
            exact ⟨fun hc => CallerState.noConfusion hc,
              fun hc => CallerState.noConfusion hc,
              fun r2 hc => by injection hc with h1 h2; exact hgf h1.symm⟩
          · rw [Function.update_noteq hji]
            exact hcall j
    · intro g hg
      dsimp only at hg ⊢
      by_cases hgf : g = f
      · subst hgf
        rw [Function.update_same] at hg
        exact EntryState.noConfusion (Option.some.inj hg)
      · rw [Function.update_noteq hgf] at hg
        obtain ⟨hex, huniq, hdone⟩ := B g hg
        refine ⟨?_, ?_, ?_⟩
        · rw [Function.update_noteq hgf]
          exact hex
        · intro j k hj hk
          by_cases hji : j = i
          · subst hji
            rw [Function.update_same] at hj
            exact CallerState.noConfusion hj
          · by_cases hki : k = i
            · subst hki
              rw [Function.update_same] at hk
              exact CallerState.noConfusion hk
            · rw [Function.update_noteq hji] at hj
              rw [Function.update_noteq hki] at hk
              exact huniq j k hj hk
        · intro j r2
          by_cases hji : j = i
          · subst hji
            rw [Function.update_same]
            intro hc
            injection hc with h1 h2
            exact hgf h1.symm
          · rw [Function.update_noteq hji]
            exact hdone j r2
    · intro g r2 hg
      dsimp only at hg ⊢
      by_cases hgf : g = f
      · subst hgf
        rw [Function.update_same] at hg
        have hr2 : r2 = builds g :=
          (EntryState.resolved.inj (Option.some.inj hg)).symm
        refine ⟨?_, hr2, ?_⟩
        · rw [Function.update_same, hexf]
        · intro j
          by_cases hji : j = i
          · subst hji
            rw [Function.update_same]
            exact fun hc => CallerState.noConfusion hc
          · rw [Function.update_noteq hji]
            intro hc
            exact hji (huniqf j i hc hri)
      · rw [Function.update_noteq hgf] at hg
        obtain ⟨hex, hr2, hnorun⟩ := C g r2 hg
        refine ⟨?_, hr2, ?_⟩
        · rw [Function.update_noteq hgf]
          exact hex
        · intro j
          by_cases hji : j = i
          · subst hji
            rw [Function.update_same]
            exact fun hc => CallerState.noConfusion hc
          · rw [Function.update_noteq hji]
            exact hnorun j
    · intro j g r2 hj
      dsimp only at hj
      by_cases hji : j = i
      · subst hji
        rw [Function.update_same] at hj
        injection hj with h1 h2
        rw [← h2, ← h1]
      · rw [Function.update_noteq hji] at hj
        exact D j g r2 hj
  | wake i f r0 hwi hef =>
    refine ⟨?_, ?_, ?_, ?_⟩
    · intro g hg
      dsimp only at hg ⊢
      obtain ⟨hex, hcall⟩ := A g hg
      have hgf : g ≠ f := by
        intro hco
        rw [hco, hef] at hg
        exact Option.noConfusion hg
      refine ⟨hex, ?_⟩
      intro j
      by_cases hji : j = i
      · subst hji
        rw [Function.update_same]
        refine ⟨fun hc => CallerState.noConfusion hc,
          fun hc => CallerState.noConfusion hc, ?_⟩
        intro r2 hc
        injection hc with h1 h2
        exact hgf h1.symm
      · rw [Function.update_noteq hji]
        exact hcall j
    · intro g hg
      dsimp only at hg ⊢
      obtain ⟨hex, huniq, hdone⟩ := B g hg
      have hgf : g ≠ f := by
        intro hco
        rw [hco, hef] at hg
        exact EntryState.noConfusion (Option.some.inj hg)
      refine ⟨hex, ?_, ?_⟩
      · intro j k hj hk
        by_cases hji : j = i
        · subst hji
          rw [Function.update_same] at hj
          exact CallerState.noConfusion hj
        · by_cases hki : k = i
          · subst hki
            rw [Function.update_same] at hk
            exact CallerState.noConfusion hk
          · rw [Function.update_noteq hji] at hj
            rw [Function.update_noteq hki] at hk
            exact huniq j k hj hk
      · intro j r2
        by_cases hji : j = i
        · subst hji
          rw [Function.update_same]
          intro hc
          injection hc with h1 h2
          exact hgf h1.symm
        · rw [Function.update_noteq hji]
          exact hdone j r2
    · intro g r2 hg
      dsimp only at hg ⊢
      obtain ⟨hex, hr2, hnorun⟩ := C g r2 hg
      refine ⟨hex, hr2, ?_⟩
      intro j
      by_cases hji : j = i
      · subst hji
        rw [Function.update_same]
        exact fun hc => CallerState.noConfusion hc
      · rw [Function.update_noteq hji]
        exact hnorun j
    · intro j g r2 hj
      dsimp only at hj
      by_cases hji : j = i
      · subst hji
        rw [Function.update_same] at hj
        injection hj with h1 h2
        rw [← h2, ← h1]
        exact (C f r0 hef).2.1
      · rw [Function.update_noteq hji] at hj
        exact D j g r2 hj

/-- The single-flight invariant holds in every reachable state. -/
theorem reachable_inv (builds : Nat → BuildResult) {s0 s : CacheState}
    (h0 : CacheInit s0) (hr : Reachable builds s0 s) : Inv builds s := by
  induction hr with
  | refl => exact inv_init builds s0 h0
  | tail h1 h2 ih => exact inv_step builds ih h2

/--
C1: single-flight `GetOrBuild` — in every state reachable from an initial
state under any interleaving of concurrent callers, the build for each
fingerprint has executed at most once; every caller that has returned for a
fingerprint holds exactly the value or error the single build produced, and
by then the build has executed exactly once; a caller entering `GetOrBuild`
always has an enabled step whatever the entries of other fingerprints hold
(unrelated fingerprints never block it), and a caller waiting on a
fingerprint is unblocked as soon as that fingerprint's own entry resolves.
-/
theorem getOrBuild_single_flight (builds : Nat → BuildResult) (s0 s : CacheState)
    (h0 : CacheInit s0) (hr : Reachable builds s0 s) :
    (∀ f, s.execs f ≤ 1) ∧
    (∀ i f r, s.caller i = .done f r → r = builds f ∧ s.execs f = 1) ∧
    (∀ i f, s.caller i = .start f → ∃ t, Step builds s t) ∧
    (∀ i f r, s.caller i = .waiting f → s.entry f = some (.resolved r) →
      ∃ t, Step builds s t) := by
  obtain ⟨A, B, C, D⟩ := reachable_inv builds h0 hr
  refine ⟨?_, ?_, ?_, ?_⟩
  · intro f
    cases he : s.entry f with
    | none =>
      rw [(A f he).1]
      exact Nat.zero_le 1
    | some es =>
      cases es with
      | building =>
        rw [(B f he).1]
        exact Nat.zero_le 1
      | resolved r =>
        rw [(C f r he).1]
  · intro i f r hdone
    refine ⟨D i f r hdone, ?_⟩
    cases he : s.entry f with
    | none => exact absurd hdone (((A f he).2 i).2.2 r)
    | some es =>
      cases es with
      | building => exact absurd hdone ((B f he).2.2 i r)
      | resolved r2 => exact (C f r2 he).1
  · intro i f hstart
    cases he : s.entry f with
    | none => exact ⟨_, Step.claimEntry s i f hstart he⟩
    | some es =>
      cases es with
      | building => exact ⟨_, Step.joinWait s i f hstart he⟩
      | resolved r2 => exact ⟨_, Step.hitResolved s i f r2 hstart he⟩
  · intro i f r hwait hres
    exact ⟨_, Step.wake s i f r hwait hres⟩

/-- Witness for C1: two concurrent callers for fingerprint `7` run to
completion through an explicit interleaving; the build executed exactly
once and the waiter got the builder's result. -/
theorem getOrBuild_single_flight_witness :
    (Except.ok 42 : BuildResult) = builds0 7 ∧ cacheS4.execs 7 = 1 := by
  have hinit : CacheInit cacheS0 := by
    refine ⟨fun f => rfl, fun f => rfl, ?_⟩
    intro i
    by_cases hi : i ≤ 1
    · exact Or.inr ⟨7, by simp [cacheS0, hi]⟩
    · exact Or.inl (by simp [cacheS0, hi])
  have hstep1 : Step builds0 cacheS0 cacheS1 :=
    Step.claimEntry cacheS0 0 7 rfl rfl
  have hstep2 : Step builds0 cacheS1 cacheS2 :=
    Step.joinWait cacheS1 1 7 rfl rfl
  have hstep3 : Step builds0 cacheS2 cacheS3 :=
    Step.runBuild cacheS2 0 7 rfl
  have hstep4 : Step builds0 cacheS3 cacheS4 :=
    Step.wake cacheS3 1 7 (builds0 7) rfl rfl
  have hreach : Reachable builds0 cacheS0 cacheS4 :=
    Relation.ReflTransGen.tail
      (Relation.ReflTransGen.tail
        (Relation.ReflTransGen.tail
          (Relation.ReflTransGen.tail Relation.ReflTransGen.refl hstep1)
          hstep2)
        hstep3)
      hstep4
  exact (getOrBuild_single_flight builds0 cacheS0 cacheS4 hinit hreach).2.1
    1 7 (Except.ok 42) rfl

end ResultCache
